import Mathlib

/-!
Verification development for the Conversai retrieval core.

The Rust sources are shallowly embedded:
* `rag-service/src/services/chunking.rs` — `chunk_sections` (token-window chunker),
* `rag-service/src/services/markdown.rs` — `parse_markdown` (segmenter),
* `rag-service/src/services/embedding.rs` — `cosine_similarity`,
* `rag-service/src/services/retrieval.rs` — the diversity-selection loop of `rerank_chunks`,
* `wasm-markdown/src/lib.rs` — `MarkdownProcessor` (search assembly, full-context dump,
  forced-priority insertion, section import).

Machine floats (`f32`) are idealised as real numbers where arithmetic matters
(`cosine_similarity`) and as exact rationals where scores are only moved around
(forced-priority scores).  The external tokenizer (tiktoken `p50k_base`) is an
abstract pair `encode`/`decode`; the external markdown event parser
(`pulldown_cmark`) is an abstract event list.  Rust byte lengths of strings are
modelled by character counts, which agree on the ASCII data used throughout.
-/

/-! ## Chunker: `rag-service/src/services/chunking.rs` -/

/-- Section record of `rag-service/src/services/markdown.rs` (`MarkdownSection`). -/
structure MarkdownSectionR where
  content : String
  heading_path : List String
  level : Nat
  start_offset : Nat
  end_offset : Nat
deriving DecidableEq

/-- Character span stored in a chunk (`span` json of chunking.rs). -/
structure ChunkSpan where
  start_char : Nat
  end_char : Nat
deriving DecidableEq

/-- Metadata stored in a chunk.  `chunk_index` is present only for chunks
produced by the splitting loop (chunking.rs line 73), absent for whole-section
chunks (lines 34-37). -/
structure ChunkMeta where
  heading_path : List String
  level : Nat
  chunk_index : Option Nat
deriving DecidableEq

/-- Chunk record of chunking.rs (`Chunk`).  The Rust field `section` is named
`sectionLabel` here because `section` is a Lean keyword. -/
structure Chunk where
  content : String
  sectionLabel : String
  tokens : Nat
  span : ChunkSpan
  metadata : ChunkMeta
deriving DecidableEq

/-- `section.heading_path.join(" > ")` (chunking.rs lines 28, 64). -/
def sectionPath (sec : MarkdownSectionR) : String :=
  String.intercalate " > " sec.heading_path

/-- Splitting loop of `chunk_sections` (chunking.rs lines 41-83) for one
oversized section.  `toks` is the section's token list, `start` the window
start, `gIdx` the value of `chunks.len()` at push time (the GLOBAL chunk
count, exactly as in line 73).  The loop is given fuel; `none` means the fuel
ran out before the loop finished.  Fuel `toks.length` is proved sufficient
whenever `ov < maxTok`. -/
def splitChunks (dec : List Nat → String) (sec : MarkdownSectionR)
    (toks : List Nat) (maxTok ov : Nat) : Nat → Nat → Nat → Option (List Chunk)
  | 0, _, _ => none
  | fuel + 1, start, gIdx =>
    if start < toks.length then
      let e := min (start + maxTok) toks.length
      let chunkToks := (toks.drop start).take (e - start)
      let charStart := if start = 0 then sec.start_offset else sec.start_offset + start * 3
      let charEnd := if e = toks.length then sec.end_offset else sec.start_offset + e * 3
      let c : Chunk :=
        { content := dec chunkToks
          sectionLabel := sectionPath sec
          tokens := chunkToks.length
          span := { start_char := charStart, end_char := charEnd }
          metadata := { heading_path := sec.heading_path, level := sec.level,
                        chunk_index := some gIdx } }
      if e < toks.length then
        match splitChunks dec sec toks maxTok ov fuel (e - ov) (gIdx + 1) with
        | some cs => some (c :: cs)
        | none => none
      else some [c]
    else some []

/-- Body of the per-section `for` loop of `chunk_sections` (chunking.rs lines
20-85): a section whose token count fits in `maxTok` becomes a single chunk
covering the whole section (lines 24-38), otherwise the splitting loop runs.
`gIdx` is the number of chunks already accumulated for earlier sections. -/
def chunkSection (enc : String → List Nat) (dec : List Nat → String)
    (sec : MarkdownSectionR) (maxTok ov gIdx : Nat) : Option (List Chunk) :=
  let toks := enc sec.content
  if toks.length ≤ maxTok then
    some [{ content := sec.content
            sectionLabel := sectionPath sec
            tokens := toks.length
            span := { start_char := sec.start_offset, end_char := sec.end_offset }
            metadata := { heading_path := sec.heading_path, level := sec.level,
                          chunk_index := none } }]
  else
    splitChunks dec sec toks maxTok ov toks.length 0 gIdx

/-- Accumulating loop over all sections (chunking.rs lines 20-85); `acc` is the
`chunks` vector, whose length feeds `chunks.len()` in the split metadata. -/
def chunkGo (enc : String → List Nat) (dec : List Nat → String)
    (maxTok ov : Nat) : List Chunk → List MarkdownSectionR → Option (List Chunk)
  | acc, [] => some acc
  | acc, s :: rest =>
    match chunkSection enc dec s maxTok ov acc.length with
    | some cs => chunkGo enc dec maxTok ov (acc ++ cs) rest
    | none => none

/-- `chunk_sections` (chunking.rs lines 16-88), parameterised by the external
tokenizer's `encode`/`decode`. -/
def chunk_sections (enc : String → List Nat) (dec : List Nat → String)
    (sections : List MarkdownSectionR) (maxTok ov : Nat) : Option (List Chunk) :=
  chunkGo enc dec maxTok ov [] sections

/-- Termination relation of the splitting `while` loop (chunking.rs lines
42-83) over the loop variable `start`: the loop exits when `start ≥ len`
(`exit`), breaks after the final window when `end = len` (`last`), or pushes a
window and continues at `start + maxTok - ov` (`step`, from
`start = end - overlap_tokens` with `end = start + maxTok < len`).
`ChunkLoopTerm maxTok ov len start` holds exactly when the loop, started at
`start` on `len` tokens, reaches its end. -/
inductive ChunkLoopTerm (maxTok ov len : Nat) : Nat → Prop where
  | exit : ∀ s, len ≤ s → ChunkLoopTerm maxTok ov len s
  | last : ∀ s, s < len → len ≤ s + maxTok → ChunkLoopTerm maxTok ov len s
  | step : ∀ s, s < len → s + maxTok < len →
      ChunkLoopTerm maxTok ov len (s + maxTok - ov) → ChunkLoopTerm maxTok ov len s

/-- Demonstration tokenizer used for concrete instances: one token per
character.  It satisfies the round-trip contract the Chunker assumes of the
external tokenizer. -/
def demoEncode (s : String) : List Nat := s.data.map Char.toNat

/-- Demonstration detokenizer, inverse of `demoEncode`. -/
def demoDecode (l : List Nat) : String := String.mk (l.map Char.ofNat)

/-! ## String primitives

Rust's `str::trim`, `str::to_lowercase`, `str::to_uppercase` and
`split_whitespace` are modelled structurally over the character list (their
core-library counterparts do not matter here; character classes follow Lean's
`Char` predicates, which agree on the ASCII data involved). -/

/-- Rust `str::trim`: drop leading and trailing whitespace. -/
def strTrim (s : String) : String :=
  String.mk (((s.data.dropWhile Char.isWhitespace).reverse.dropWhile
    Char.isWhitespace).reverse)

/-- Rust `str::to_lowercase` (per character). -/
def strToLower (s : String) : String := String.mk (s.data.map Char.toLower)

/-- Rust `str::to_uppercase` (per character). -/
def strToUpper (s : String) : String := String.mk (s.data.map Char.toUpper)

/-- Accumulating splitter behind `split_whitespace`: non-empty maximal runs
of non-whitespace characters, in order. -/
def wordsAux : List Char → List Char → List (List Char)
  | acc, [] => if acc.isEmpty then [] else [acc.reverse]
  | acc, c :: rest =>
    if c.isWhitespace then
      if acc.isEmpty then wordsAux [] rest else acc.reverse :: wordsAux [] rest
    else wordsAux (c :: acc) rest

/-! ## Segmenter: `rag-service/src/services/markdown.rs` -/

/-- Closed enumeration of the `pulldown_cmark` events `parse_markdown` matches
on (markdown.rs lines 23-78).  `startHeading` carries the heading depth
(`level as usize`) and the event range's start offset (`range.start`); events
the Rust `_ => {}` arm ignores are `other`. -/
inductive MdEvent where
  | startHeading (level : Nat) (rangeStart : Nat)
  | endHeading
  | text (s : String)
  | code (s : String)
  | startCodeBlock
  | endCodeBlock
  | softBreak
  | hardBreak
  | other
deriving DecidableEq

/-- Loop `while current_heading_path.len() >= current_level { pop() }`
(markdown.rs lines 41-43).  `Vec::pop` removes from the end; the recursion
peels the reversed list from the front, so `popWhile` is stated on the
reversed path below. -/
def popDropRev (level : Nat) : List String → List String
  | [] => []
  | x :: xs => if level ≤ (x :: xs).length then popDropRev level xs else x :: xs

/-- Result of the heading-path pop loop on the path in document order. -/
def popWhile (level : Nat) (path : List String) : List String :=
  (popDropRev level path.reverse).reverse

/-- Mutable state of `parse_markdown` (markdown.rs lines 15-20). -/
structure MdState where
  sections : List MarkdownSectionR
  path : List String
  content : String
  level : Nat
  startOff : Nat
  inCode : Bool
deriving DecidableEq

/-- One iteration of the event loop of `parse_markdown` (markdown.rs lines
22-79), exactly mirroring the `match event` arms. -/
def mdStep (st : MdState) : MdEvent → MdState
  | .startHeading lv r =>
    let sections :=
      if (strTrim st.content).isEmpty then st.sections
      else st.sections ++ [{ content := st.content, heading_path := st.path,
                             level := st.level, start_offset := st.startOff,
                             end_offset := r }]
    { sections := sections, path := popWhile lv st.path, content := "",
      level := lv, startOff := r, inCode := st.inCode }
  | .endHeading => st
  | .text s =>
    let path :=
      if 0 < st.level ∧ st.path.length < st.level then st.path ++ [s] else st.path
    { st with path := path, content := st.content ++ s ++ " " }
  | .code s => { st with content := st.content ++ "`" ++ s ++ "` " }
  | .startCodeBlock => { st with inCode := true, content := st.content ++ "```\n" }
  | .endCodeBlock => { st with inCode := false, content := st.content ++ "```\n" }
  | .softBreak => { st with content := st.content ++ (if st.inCode then "\n" else " ") }
  | .hardBreak => { st with content := st.content ++ (if st.inCode then "\n" else " ") }
  | .other => st

/-- Initial state of `parse_markdown` (markdown.rs lines 15-20). -/
def mdInit : MdState :=
  { sections := [], path := [], content := "", level := 0, startOff := 0, inCode := false }

/-- Final flush of `parse_markdown` (markdown.rs lines 81-90): save the last
section, with `end_offset = content.len()`, when its trimmed content is
non-empty. -/
def mdFinal (docLen : Nat) (st : MdState) : List MarkdownSectionR :=
  if (strTrim st.content).isEmpty then st.sections
  else st.sections ++ [{ content := st.content, heading_path := st.path,
                         level := st.level, start_offset := st.startOff,
                         end_offset := docLen }]

/-- `parse_markdown` (markdown.rs lines 13-93) over the abstract event stream;
`docLen` is `content.len()` used for the final section's `end_offset`. -/
def parse_markdown (events : List MdEvent) (docLen : Nat) : List MarkdownSectionR :=
  mdFinal docLen (events.foldl mdStep mdInit)

/-- Start offsets of the heading events of a stream, in order; the parser
contract (`into_offset_iter` of `pulldown_cmark`) supplies these
non-decreasing and bounded by the document length. -/
def headingRangeStarts (events : List MdEvent) : List Nat :=
  events.filterMap fun e =>
    match e with
    | .startHeading _ r => some r
    | _ => none

/-! ## Cosine similarity: `rag-service/src/services/embedding.rs` -/

/-- `cosine_similarity` (embedding.rs lines 57-67) with `f32` idealised as
real arithmetic: `dot` is the sum of pairwise products over `zip` (which
truncates to the shorter vector, like `Iterator::zip`), the norms are square
roots of the sums of squares, and the norm-zero guard of lines 62-64 returns 0
without dividing. -/
noncomputable def cosine_similarity (a b : List ℝ) : ℝ :=
  let dot := (List.zipWith (fun x y => x * y) a b).sum
  let normA := Real.sqrt (a.map fun x => x * x).sum
  let normB := Real.sqrt (b.map fun x => x * x).sum
  if normA = 0 ∨ normB = 0 then 0 else dot / (normA * normB)

/-! ## Selector: `rag-service/src/services/retrieval.rs` -/

/-- Fields of `ChunkWithScore` consulted by the diversity loop of
`rerank_chunks` (retrieval.rs lines 89-103): only `chunk.document_id` steers
the loop; `chunk_id` stands for the rest of the record so distinct candidates
stay distinct. -/
structure ChunkWS where
  document_id : Nat
  chunk_id : Nat
deriving DecidableEq

/-- Diversity-selection loop of `rerank_chunks` (retrieval.rs lines 88-103):
walk the ranked list, keep a per-document counter (`seen_docs`), accept while
the counter is below the hard-coded cap 2, and break once `top_k` results are
accepted.  `cnt` is the counter map, `len` the current `diverse_results.len()`. -/
def selectLoop (topK : Nat) : (Nat → Nat) → Nat → List ChunkWS → List ChunkWS
  | _, _, [] => []
  | cnt, len, c :: rest =>
    if cnt c.document_id < 2 then
      if topK ≤ len + 1 then [c]
      else c :: selectLoop topK
        (fun d => if d = c.document_id then cnt d + 1 else cnt d) (len + 1) rest
    else selectLoop topK cnt len rest

/-- Diversity selection of `rerank_chunks` applied to the ranked list. -/
def select_diverse (ranked : List ChunkWS) (topK : Nat) : List ChunkWS :=
  selectLoop topK (fun _ => 0) 0 ranked

/-! ## Embedded processor: `wasm-markdown/src/lib.rs` -/

/-- Section record of lib.rs (`MarkdownSection` of the wasm crate); the `f32`
relevance is held as an exact rational (it is only stored, never computed
with). -/
structure WSection where
  id : String
  title : String
  content : String
  tags : List String
  relevance : ℚ
  category : String
deriving DecidableEq

/-- Processor state of lib.rs (`MarkdownProcessor`): the section store and the
inverted index `word -> section indices`.  The `HashMap` is modelled
extensionally as a function with `[]` for absent keys, matching
`entry(..).or_insert_with(Vec::new)`.  `max_context_length` is passed to the
assembly functions explicitly. -/
structure Processor where
  sections : List WSection
  index : String → List Nat

/-- Word normalisation used by indexing and search (lib.rs lines 136-139,
157-160): lowercase, keep alphanumeric characters only. -/
def normalizeWord (w : String) : String :=
  String.mk ((strToLower w).data.filter Char.isAlphanum)

/-- Rust `str::split_whitespace`: split on whitespace and drop empty pieces. -/
def splitWs (s : String) : List String :=
  (wordsAux [] s.data).map String.mk

/-- `add_section` (lib.rs lines 125-149): trim the content, append every
normalised non-empty word of the trimmed content and of the title to that
word's posting list under the new section's index, then push the section. -/
def add_section (st : Processor) (sec : WSection) : Processor :=
  let sectionIdx := st.sections.length
  let trimmed : WSection := { sec with content := strTrim sec.content }
  let words := splitWs trimmed.content ++ splitWs trimmed.title
  let index := words.foldl
    (fun ix w =>
      let wl := normalizeWord w
      if wl.isEmpty then ix
      else fun w' => if w' = wl then ix w' ++ [sectionIdx] else ix w')
    st.index
  { sections := st.sections ++ [trimmed], index := index }

/-- `clear` (lib.rs lines 46-50). -/
def clearProcessor (_st : Processor) : Processor :=
  { sections := [], index := fun _ => [] }

/-- `import_sections` (lib.rs lines 307-320).  The `serde_json` parse is the
external boundary: `none` stands for a string that does not parse as a section
list (the `Err` arm, which only logs), `some secs` for a successful parse. -/
def import_sections (st : Processor) (parsed : Option (List WSection)) : Processor :=
  match parsed with
  | none => st
  | some secs => secs.foldl add_section (clearProcessor st)

/-- Substring test, Rust `str::contains` (lib.rs line 209). -/
def strContainsSub (hay pat : String) : Bool :=
  let rec go : List Char → Bool
    | [] => pat.data.isEmpty
    | l@(_ :: rest) => pat.data.isPrefixOf l || go rest
  go hay.data

/-- The forced-priority id list `core_sections` (lib.rs line 207). -/
def coreSections : List String := ["personal_identity", "personal_background"]

/-- Body of the forced-priority `for` loop of `search` (lib.rs lines
208-214) for one core id: find the FIRST section whose id contains it
(`position`); if that index is not already in the score list, insert it at
the front with score 100.0. -/
def forcedStep (sections : List WSection) (sc : List (Nat × ℚ)) (core : String) :
    List (Nat × ℚ) :=
  match sections.findIdx? (fun s => strContainsSub s.id core) with
  | some idx => if sc.any (fun p => p.1 = idx) then sc else (idx, 100) :: sc
  | none => sc

/-- Forced-priority step of `search` (lib.rs lines 206-214), applied to the
ranked-and-truncated score list, one core id at a time in order. -/
def forcedInsert (sections : List WSection) (scores : List (Nat × ℚ)) : List (Nat × ℚ) :=
  coreSections.foldl (forcedStep sections) scores

/-- Truncation marker appended when the context budget is hit (lib.rs lines
234, 269). -/
def truncMarker : String := "\n[Context truncated due to length limits]"

/-- Fixed preamble of the ranked context (lib.rs line 220); its length is NOT
added to `total_length`. -/
def searchPreamble : String := "# RELEVANT CONTEXT\n\n"

/-- Assembly loop of `search` (lib.rs lines 222-240) over the pre-rendered
section blocks (each block is one `section_text` of lines 225-230): append
whole blocks while the running counted length stays within `maxLen`; on the
first block that would exceed it, append the marker and stop. -/
def searchLoop (maxLen : Nat) : Nat → List String → String
  | _, [] => ""
  | total, b :: rest =>
    if maxLen < total + b.length then truncMarker
    else b ++ searchLoop maxLen (total + b.length) rest

/-- Ranked-mode context assembly of `search` (lib.rs lines 216-244): the
preamble followed by the loop's output. -/
def assembleContext (blocks : List String) (maxLen : Nat) : String :=
  searchPreamble ++ searchLoop maxLen 0 blocks

/-- Rendering of one section in `get_full_context` (lib.rs line 266). -/
def sectionText (s : WSection) : String :=
  "## " ++ s.title ++ "\n" ++ s.content ++ "\n\n"

/-- Category header of `get_full_context` (lib.rs line 263); pushed without
being counted into `total_length`. -/
def catHeader (cat : String) : String :=
  "\n# " ++ strToUpper cat ++ " INFORMATION\n\n"

/-- Fixed category priority order of `get_full_context` (lib.rs line 259). -/
def fullCategories : List String := ["personal", "context", "knowledge"]

/-- Inner section loop of `get_full_context` (lib.rs lines 265-275); returns
the extended context, the updated counted length, and whether the truncation
marker was emitted (the Rust code then returns from the whole function). -/
def fullLoop (maxLen : Nat) : Nat → String → List WSection → String × Nat × Bool
  | total, ctx, [] => (ctx, total, false)
  | total, ctx, s :: rest =>
    let st := sectionText s
    if maxLen < total + st.length then (ctx ++ truncMarker, total, true)
    else fullLoop maxLen (total + st.length) (ctx ++ st) rest

/-- Category loop of `get_full_context` (lib.rs lines 261-277): for each
category in priority order with a non-empty group, push the (uncounted)
header, run the inner loop, and stop everything if it truncated. -/
def fullCats (maxLen : Nat) (sections : List WSection) : Nat → String → List String → String
  | _, ctx, [] => ctx
  | total, ctx, cat :: rest =>
    let group := sections.filter fun s => s.category = cat
    if group.isEmpty then fullCats maxLen sections total ctx rest
    else
      let r := fullLoop maxLen total (ctx ++ catHeader cat) group
      if r.2.2 then r.1 else fullCats maxLen sections r.2.1 r.1 rest

/-- `get_full_context` (lib.rs lines 246-280), with `max_context_length`
explicit.  Grouping by category with per-category insertion order
(`by_category`) is the in-order filter of each category. -/
def get_full_context (sections : List WSection) (maxLen : Nat) : String :=
  fullCats maxLen sections 0 "" fullCategories

/-! ## Example inputs for concrete instances -/

/-- Small section: two demo tokens. -/
def exSecSmall : MarkdownSectionR :=
  { content := "ab", heading_path := ["A"], level := 1, start_offset := 0, end_offset := 5 }

/-- Oversized section: four demo tokens. -/
def exSecBig : MarkdownSectionR :=
  { content := "abcd", heading_path := ["B"], level := 1, start_offset := 10, end_offset := 20 }

/-- Event stream of the document `"# A\n### B"`: a level-1 heading followed by
a level-3 heading whose section closes at end of input. -/
def exEvents : List MdEvent :=
  [.startHeading 1 0, .text "A", .endHeading, .startHeading 3 4, .text "B", .endHeading]

/-- Embedded-processor section used for the full-context budget instance. -/
def exWps : WSection :=
  { id := "s1", title := "t", content := "c", tags := [], relevance := 0, category := "personal" }

/-- First section whose id contains the forced id `personal_identity`. -/
def exWid1 : WSection :=
  { id := "personal_identity_a", title := "", content := "", tags := [], relevance := 0,
    category := "personal" }

/-- Second section whose id also contains the forced id `personal_identity`. -/
def exWid2 : WSection :=
  { id := "personal_identity_b", title := "", content := "", tags := [], relevance := 0,
    category := "personal" }

/-- Section with untrimmed content, for the import instance. -/
def exWimp : WSection :=
  { id := "i", title := "t", content := " a ", tags := [], relevance := 0,
    category := "knowledge" }

/-- Empty processor state. -/
def emptyProcessor : Processor := { sections := [], index := fun _ => [] }

/-- Expected chunk output for the one-section input `[exSecSmall]`. -/
def exOutSmall : List Chunk :=
  [{ content := exSecSmall.content
     sectionLabel := sectionPath exSecSmall
     tokens := 2
     span := { start_char := exSecSmall.start_offset, end_char := exSecSmall.end_offset }
     metadata := { heading_path := exSecSmall.heading_path, level := exSecSmall.level,
                   chunk_index := none } }]

/-! ## Theorems -/

/-- C1 (amended): for every `0 ≤ overlap_tokens < max_tokens` the splitting
`while` loop of `chunk_sections` terminates from every start position; the
claimed eager rejection of `overlap_tokens ≥ max_tokens` does not exist in the
code (see the counterexample below). -/
theorem chunk_loop_terminates (maxTok ov len : Nat) (hov : ov < maxTok) :
    ∀ s, ChunkLoopTerm maxTok ov len s := by
  have key : ∀ d s, len ≤ s + d → ChunkLoopTerm maxTok ov len s := by
    intro d
    induction d with
    | zero => intro s hs; exact ChunkLoopTerm.exit s (by omega)
    | succ d ih =>
      intro s hs
      by_cases h1 : len ≤ s
      · exact ChunkLoopTerm.exit s h1
      · by_cases h2 : len ≤ s + maxTok
        · exact ChunkLoopTerm.last s (by omega) h2
        · exact ChunkLoopTerm.step s (by omega) (by omega)
            (ih (s + maxTok - ov) (by omega))
  intro s
  exact key len s (by omega)

/-- Witness for `chunk_loop_terminates` at `max_tokens = 2`,
`overlap_tokens = 1`, 5 tokens, start 0. -/
theorem chunk_loop_terminates_witness : 1 < 2 ∧ ChunkLoopTerm 2 1 5 0 :=
  ⟨by decide, chunk_loop_terminates 2 1 5 (by decide) 0⟩

/-- C1 counterexample: with `overlap_tokens = max_tokens = 1` on a 2-token
section the loop revisits `start = 0` forever (`end = 1 < 2`, next
`start = end - overlap = 0`), so the call is neither rejected nor does it
terminate, contradicting the claimed eager rejection. -/
theorem chunk_loop_overlap_eq_max_diverges : ¬ ChunkLoopTerm 1 1 2 0 := by
  intro h
  have aux : ∀ s, ChunkLoopTerm 1 1 2 s → s = 0 → False := by
    intro s hs
    induction hs with
    | exit t hle => intro h0; omega
    | last t h1 h2 => intro h0; omega
    | step t h1 h2 h3 ih => intro h0; exact ih (by omega)
  exact aux 0 h rfl

/-- C3: a section whose token count is at most `max_tokens` yields exactly one
chunk, whose content is the section's content and whose span is the section's
`(start_offset, end_offset)` (chunking.rs lines 24-38). -/
theorem chunk_section_small (enc : String → List Nat) (dec : List Nat → String)
    (sec : MarkdownSectionR) (maxTok ov gIdx : Nat)
    (h : (enc sec.content).length ≤ maxTok) :
    chunkSection enc dec sec maxTok ov gIdx =
      some [{ content := sec.content
              sectionLabel := sectionPath sec
              tokens := (enc sec.content).length
              span := { start_char := sec.start_offset, end_char := sec.end_offset }
              metadata := { heading_path := sec.heading_path, level := sec.level,
                            chunk_index := none } }] := by
  unfold chunkSection
  simp [h]

/-- Witness for `chunk_section_small`: the 2-token section `exSecSmall` with
`max_tokens = 3` becomes one whole-section chunk. -/
theorem chunk_section_small_witness :
    (demoEncode exSecSmall.content).length ≤ 3 ∧
    chunkSection demoEncode demoDecode exSecSmall 3 1 0 =
      some [{ content := exSecSmall.content
              sectionLabel := sectionPath exSecSmall
              tokens := (demoEncode exSecSmall.content).length
              span := { start_char := exSecSmall.start_offset,
                        end_char := exSecSmall.end_offset }
              metadata := { heading_path := exSecSmall.heading_path,
                            level := exSecSmall.level, chunk_index := none } }] :=
  ⟨by decide, chunk_section_small demoEncode demoDecode exSecSmall 3 1 0 (by decide)⟩

/-- Full description of the splitting loop on an oversized section: with
`overlap < max_tokens`, fuel `len - start` suffices, each window except the
last spans exactly `max_tokens` tokens, the window token counts sum to
`(len - start) + overlap * (n - 1)`, the stored `span.start_char` values
(`start_offset + 3 * token_start`, chunking.rs lines 50-54) strictly increase,
and the stored `chunk_index` values count on from `gIdx`. -/
theorem splitChunks_spec (dec : List Nat → String) (sec : MarkdownSectionR)
    (toks : List Nat) (maxTok ov : Nat) (hov : ov < maxTok) :
    ∀ fuel start gIdx, start < toks.length → toks.length ≤ start + fuel →
    ∃ cs, splitChunks dec sec toks maxTok ov fuel start gIdx = some cs ∧
      cs ≠ [] ∧
      (cs.map Chunk.tokens).sum + start = toks.length + ov * (cs.length - 1) ∧
      (∀ c ∈ cs.dropLast, c.tokens = maxTok) ∧
      (cs.map fun c => c.span.start_char).head? = some (sec.start_offset + start * 3) ∧
      List.Chain' (· < ·) (cs.map fun c => c.span.start_char) ∧
      (∀ i c, cs[i]? = some c → c.metadata.chunk_index = some (gIdx + i)) := by
  intro fuel
  induction fuel with
  | zero => intro start gIdx h1 h2; omega
  | succ fuel ih =>
    intro start gIdx h1 h2
    simp only [splitChunks, if_pos h1]
    have hmin : min (start + maxTok) toks.length = start + maxTok ∨
        min (start + maxTok) toks.length = toks.length := by omega
    have htake : ((toks.drop start).take (min (start + maxTok) toks.length - start)).length
        = min (start + maxTok) toks.length - start := by
      simp only [List.length_take, List.length_drop]
      omega
    by_cases hlt : min (start + maxTok) toks.length < toks.length
    · have he : min (start + maxTok) toks.length = start + maxTok := by omega
      have hlt' : start + maxTok < toks.length := by omega
      simp only [if_pos hlt]
      obtain ⟨cs', hcs', hne', hsum', hlast', hhead', hchain', hidx'⟩ :=
        ih (min (start + maxTok) toks.length - ov) (gIdx + 1) (by omega) (by omega)
      rw [hcs']
      refine ⟨_, rfl, by simp, ?_, ?_, ?_, ?_, ?_⟩
      · -- token counts sum
        obtain ⟨c', cs'', rfl⟩ := List.exists_cons_of_ne_nil hne'
        simp only [List.map_cons, List.sum_cons, List.length_cons, htake] at hsum' ⊢
        have hml : ov * (cs''.length + 1) = ov * cs''.length + ov := by ring
        simp only [Nat.add_sub_cancel] at hsum' ⊢
        omega
      · -- all but the last chunk have maxTok tokens
        intro c hc
        obtain ⟨c', cs'', rfl⟩ := List.exists_cons_of_ne_nil hne'
        rcases List.mem_cons.mp (by simpa using hc) with hc1 | hc2
        · subst hc1; simp only [htake]; omega
        · exact hlast' c (by simpa using hc2)
      · -- head start_char
        simp only [List.map_cons, List.head?_cons, Option.some.injEq]
        split
        · omega
        · rfl
      · -- strictly increasing start_chars
        rw [List.map_cons, List.chain'_cons']
        refine ⟨?_, hchain'⟩
        intro y hy
        rw [hhead'] at hy
        simp only [Option.mem_def, Option.some.injEq] at hy
        subst hy
        dsimp only
        split
        · omega
        · omega
      · -- chunk indices continue from gIdx
        intro i c hc
        match i with
        | 0 => simp only [List.getElem?_cons_zero, Option.some.injEq] at hc; subst hc; simp
        | i + 1 =>
          simp only [List.getElem?_cons_succ] at hc
          have := hidx' i c hc
          rw [this]
          congr 1
          omega
    · have he : min (start + maxTok) toks.length = toks.length := by omega
      simp only [if_neg hlt]
      refine ⟨_, rfl, by simp, ?_, ?_, ?_, ?_, ?_⟩
      · simp only [List.map_cons, List.map_nil, List.sum_cons, List.sum_nil,
          List.length_cons, List.length_nil, htake]
        omega
      · intro c hc
        simp at hc
      · simp only [List.map_cons, List.map_nil, List.head?_cons, Option.some.injEq]
        split
        · omega
        · rfl
      · simp
      · intro i c hc
        match i with
        | 0 => simp only [List.getElem?_cons_zero, Option.some.injEq] at hc; subst hc; simp
        | i + 1 => simp at hc

/-- C2: a section with more tokens than `max_tokens`, chunked with
`0 ≤ overlap < max_tokens`, produces a non-empty chunk list in which every
chunk but the last has exactly `max_tokens` tokens, the token counts satisfy
`Σ tokens = total + overlap * (n - 1)` (the claim's
`Σ tokens - overlap * (n - 1) = total` moved to addition form), and the
chunks are in strictly increasing token-offset order, witnessed by their
stored `span.start_char = start_offset + 3 * token_start`. -/
theorem chunk_section_split (enc : String → List Nat) (dec : List Nat → String)
    (sec : MarkdownSectionR) (maxTok ov gIdx : Nat)
    (hov : ov < maxTok) (hbig : maxTok < (enc sec.content).length) :
    ∃ cs, chunkSection enc dec sec maxTok ov gIdx = some cs ∧
      cs ≠ [] ∧
      (∀ c ∈ cs.dropLast, c.tokens = maxTok) ∧
      (cs.map Chunk.tokens).sum = (enc sec.content).length + ov * (cs.length - 1) ∧
      List.Chain' (· < ·) (cs.map fun c => c.span.start_char) := by
  obtain ⟨cs, hcs, hne, hsum, hlast, hhead, hchain, hidx⟩ :=
    splitChunks_spec dec sec (enc sec.content) maxTok ov hov
      (enc sec.content).length 0 gIdx (by omega) (by omega)
  refine ⟨cs, ?_, hne, hlast, by omega, hchain⟩
  unfold chunkSection
  rw [if_neg (by omega)]
  exact hcs

/-- Witness for `chunk_section_split`: the 4-token section `exSecBig` with
`max_tokens = 3`, `overlap = 1`. -/
theorem chunk_section_split_witness :
    (1 < 3 ∧ 3 < (demoEncode exSecBig.content).length) ∧
    ∃ cs, chunkSection demoEncode demoDecode exSecBig 3 1 0 = some cs ∧
      cs ≠ [] ∧
      (∀ c ∈ cs.dropLast, c.tokens = 3) ∧
      (cs.map Chunk.tokens).sum = (demoEncode exSecBig.content).length + 1 * (cs.length - 1) ∧
      List.Chain' (· < ·) (cs.map fun c => c.span.start_char) :=
  ⟨⟨by decide, by decide⟩,
    chunk_section_split demoEncode demoDecode exSecBig 3 1 0 (by decide) (by decide)⟩

/-- Chunk indices produced by the splitting loop count on from `gIdx`
whenever the loop finishes, with no assumption on the overlap. -/
theorem splitChunks_idx (dec : List Nat → String) (sec : MarkdownSectionR)
    (toks : List Nat) (maxTok ov : Nat) :
    ∀ fuel start gIdx cs, splitChunks dec sec toks maxTok ov fuel start gIdx = some cs →
    ∀ i c, cs[i]? = some c → c.metadata.chunk_index = some (gIdx + i) := by
  intro fuel
  induction fuel with
  | zero => intro start gIdx cs h; simp [splitChunks] at h
  | succ fuel ih =>
    intro start gIdx cs h
    simp only [splitChunks] at h
    by_cases h1 : start < toks.length
    · rw [if_pos h1] at h
      by_cases hlt : min (start + maxTok) toks.length < toks.length
      · rw [if_pos hlt] at h
        rcases hrec : splitChunks dec sec toks maxTok ov fuel
            (min (start + maxTok) toks.length - ov) (gIdx + 1) with _ | cs'
        · rw [hrec] at h; simp at h
        · rw [hrec] at h
          simp only [Option.some.injEq] at h
          subst h
          intro i c hc
          match i with
          | 0 =>
            simp only [List.getElem?_cons_zero, Option.some.injEq] at hc
            subst hc; simp
          | i + 1 =>
            simp only [List.getElem?_cons_succ] at hc
            rw [ih _ _ _ hrec i c hc]
            congr 1
            omega
      · rw [if_neg hlt] at h
        simp only [Option.some.injEq] at h
        subst h
        intro i c hc
        match i with
        | 0 =>
          simp only [List.getElem?_cons_zero, Option.some.injEq] at hc
          subst hc; simp
        | i + 1 => simp at hc
    · rw [if_neg h1] at h
      simp only [Option.some.injEq] at h
      subst h
      intro i c hc
      simp at hc

/-- One section's chunks either form the single whole-section chunk (no
`chunk_index`) or carry indices counting on from the global count `gIdx`. -/
theorem chunkSection_idx (enc : String → List Nat) (dec : List Nat → String)
    (sec : MarkdownSectionR) (maxTok ov gIdx : Nat) (cs : List Chunk)
    (h : chunkSection enc dec sec maxTok ov gIdx = some cs) :
    ∀ i c, cs[i]? = some c →
      c.metadata.chunk_index = none ∨ c.metadata.chunk_index = some (gIdx + i) := by
  unfold chunkSection at h
  by_cases hle : (enc sec.content).length ≤ maxTok
  · rw [if_pos hle] at h
    simp only [Option.some.injEq] at h
    subst h
    intro i c hc
    match i with
    | 0 =>
      simp only [List.getElem?_cons_zero, Option.some.injEq] at hc
      subst hc; left; rfl
    | i + 1 => simp at hc
  · rw [if_neg hle] at h
    intro i c hc
    exact Or.inr (splitChunks_idx dec sec (enc sec.content) maxTok ov _ _ _ _ h i c hc)

/-- Accumulated chunk lists keep `chunk_index` equal to the chunk's position
in the whole output. -/
theorem chunkGo_idx (enc : String → List Nat) (dec : List Nat → String)
    (maxTok ov : Nat) :
    ∀ (secs : List MarkdownSectionR) (acc out : List Chunk),
      (∀ (i : Nat) (c : Chunk), acc[i]? = some c →
        c.metadata.chunk_index = none ∨ c.metadata.chunk_index = some i) →
      chunkGo enc dec maxTok ov acc secs = some out →
      ∀ (i : Nat) (c : Chunk), out[i]? = some c →
        c.metadata.chunk_index = none ∨ c.metadata.chunk_index = some i := by
  intro secs
  induction secs with
  | nil =>
    intro acc out hacc h
    simp only [chunkGo, Option.some.injEq] at h
    subst h
    exact hacc
  | cons s rest ih =>
    intro acc out hacc h
    simp only [chunkGo] at h
    rcases hsec : chunkSection enc dec s maxTok ov acc.length with _ | cs
    · rw [hsec] at h; simp at h
    · rw [hsec] at h
      refine ih (acc ++ cs) out ?_ h
      intro i c hc
      by_cases hi : i < acc.length
      · rw [List.getElem?_append_left hi] at hc
        exact hacc i c hc
      · rw [List.getElem?_append_right (by omega)] at hc
        rcases chunkSection_idx enc dec s maxTok ov acc.length cs hsec
            (i - acc.length) c hc with h0 | h0
        · exact Or.inl h0
        · right
          rw [h0]
          congr 1
          omega

/-- C9 (amended): the `chunk_index` stored in a split chunk's metadata is the
value of `chunks.len()` at push time (chunking.rs line 73), i.e. the chunk's
0-based position in the WHOLE output across all sections — not an index
restarting at 0 for each section. -/
theorem chunk_sections_chunk_index (enc : String → List Nat)
    (dec : List Nat → String) (secs : List MarkdownSectionR) (maxTok ov : Nat)
    (out : List Chunk) (h : chunk_sections enc dec secs maxTok ov = some out) :
    ∀ (i : Nat) (c : Chunk), out[i]? = some c →
      c.metadata.chunk_index = none ∨ c.metadata.chunk_index = some i := by
  refine chunkGo_idx enc dec maxTok ov secs [] out ?_ h
  intro i c hc
  simp at hc

/-- C9 counterexample: chunking a fitting section followed by a split section
gives the split section's first chunk `chunk_index = 1` (the global position),
not the per-section index 0 the claim requires. -/
theorem chunk_index_not_per_section :
    (chunk_sections demoEncode demoDecode [exSecSmall, exSecBig] 3 1).map
        (fun l => l.map fun c => c.metadata.chunk_index) =
      some [none, some 1, some 2] ∧
    ¬ ((chunk_sections demoEncode demoDecode [exSecSmall, exSecBig] 3 1).map
        (fun l => l.map fun c => c.metadata.chunk_index) =
      some [none, some 0, some 1]) := by
  constructor
  · decide
  · decide

/-- Witness for `chunk_sections_chunk_index` on the one-section input
`[exSecSmall]`. -/
theorem chunk_sections_chunk_index_witness :
    (chunk_sections demoEncode demoDecode [exSecSmall] 3 1 = some exOutSmall) ∧
    (∀ (i : Nat) (c : Chunk), exOutSmall[i]? = some c →
      c.metadata.chunk_index = none ∨ c.metadata.chunk_index = some i) :=
  ⟨by decide,
    chunk_sections_chunk_index demoEncode demoDecode [exSecSmall] 3 1 exOutSmall (by decide)⟩

/-- The selection loop never grows the accepted list past `top_k` when it
starts strictly below `top_k`. -/
theorem selectLoop_length (topK : Nat) :
    ∀ (l : List ChunkWS) (cnt : Nat → Nat) (len : Nat), len < topK →
      (selectLoop topK cnt len l).length + len ≤ topK := by
  intro l
  induction l with
  | nil => intro cnt len h; simp [selectLoop]; omega
  | cons c rest ih =>
    intro cnt len h
    simp only [selectLoop]
    by_cases hacc : cnt c.document_id < 2
    · rw [if_pos hacc]
      by_cases hbrk : topK ≤ len + 1
      · rw [if_pos hbrk]
        simp
        omega
      · rw [if_neg hbrk]
        have := ih (fun d => if d = c.document_id then cnt d + 1 else cnt d) (len + 1)
          (by omega)
        simp only [List.length_cons]
        omega
    · rw [if_neg hacc]
      exact ih cnt len h

/-- The selection loop accepts at most `2 - cnt d` further candidates from
document `d` when the counter already reads `cnt d`. -/
theorem selectLoop_cap (topK d : Nat) :
    ∀ (l : List ChunkWS) (cnt : Nat → Nat) (len : Nat),
      ((selectLoop topK cnt len l).filter fun c => c.document_id == d).length
        ≤ 2 - cnt d := by
  intro l
  induction l with
  | nil => intro cnt len; simp [selectLoop]
  | cons c rest ih =>
    intro cnt len
    simp only [selectLoop]
    by_cases hacc : cnt c.document_id < 2
    · rw [if_pos hacc]
      by_cases hbrk : topK ≤ len + 1
      · rw [if_pos hbrk]
        by_cases hd : c.document_id = d
        · subst hd
          rw [List.filter_cons, if_pos (by simp)]
          simp only [List.filter_nil, List.length_cons, List.length_nil]
          omega
        · rw [List.filter_cons, if_neg (by simp [hd])]
          simp
      · rw [if_neg hbrk]
        by_cases hd : c.document_id = d
        · subst hd
          have h2 := ih (fun d' => if d' = c.document_id then cnt d' + 1 else cnt d') (len + 1)
          rw [if_pos rfl] at h2
          rw [List.filter_cons, if_pos (by simp)]
          rw [List.length_cons]
          omega
        · have h2 := ih (fun d' => if d' = c.document_id then cnt d' + 1 else cnt d') (len + 1)
          rw [if_neg (fun hx => hd hx.symm)] at h2
          rw [List.filter_cons, if_neg (by simp [hd])]
          exact h2
    · rw [if_neg hacc]
      exact ih cnt len

/-- The selection loop returns a sublist of its input: accepted candidates
keep their relative order. -/
theorem selectLoop_sublist (topK : Nat) :
    ∀ (l : List ChunkWS) (cnt : Nat → Nat) (len : Nat),
      List.Sublist (selectLoop topK cnt len l) l := by
  intro l
  induction l with
  | nil => intro cnt len; simp [selectLoop]
  | cons c rest ih =>
    intro cnt len
    simp only [selectLoop]
    by_cases hacc : cnt c.document_id < 2
    · rw [if_pos hacc]
      by_cases hbrk : topK ≤ len + 1
      · rw [if_pos hbrk]
        exact (List.nil_sublist rest).cons₂ c
      · rw [if_neg hbrk]
        exact (ih _ (len + 1)).cons₂ c
    · rw [if_neg hacc]
      exact (ih cnt len).cons c

/-- C5 (amended): for every ranked list and every `top_k ≥ 1` the diversity
loop of `rerank_chunks` returns at most `top_k` candidates, no document
contributes more than the hard-coded cap 2, and accepted candidates keep the
input's relative order (they form a sublist of the ranked input).  For
`top_k = 0` the bound fails — see the counterexample. -/
theorem select_diverse_spec (ranked : List ChunkWS) (topK : Nat) (h : 1 ≤ topK) :
    (select_diverse ranked topK).length ≤ topK ∧
    (∀ d : Nat,
      ((select_diverse ranked topK).filter fun c => c.document_id == d).length ≤ 2) ∧
    List.Sublist (select_diverse ranked topK) ranked := by
  refine ⟨?_, ?_, selectLoop_sublist topK ranked _ 0⟩
  · have := selectLoop_length topK ranked (fun _ => 0) 0 (by omega)
    unfold select_diverse
    omega
  · intro d
    have := selectLoop_cap topK d ranked (fun _ => 0) 0
    unfold select_diverse
    omega

/-- Witness for `select_diverse_spec` on a one-candidate list with `top_k = 1`. -/
theorem select_diverse_spec_witness :
    1 ≤ 1 ∧
    ((select_diverse [{ document_id := 0, chunk_id := 0 }] 1).length ≤ 1 ∧
    (∀ d : Nat,
      ((select_diverse [{ document_id := 0, chunk_id := 0 }] 1).filter
        fun c => c.document_id == d).length ≤ 2) ∧
    List.Sublist (select_diverse [{ document_id := 0, chunk_id := 0 }] 1)
      [{ document_id := 0, chunk_id := 0 }]) :=
  ⟨by decide, select_diverse_spec [{ document_id := 0, chunk_id := 0 }] 1 (by decide)⟩

/-- C5 counterexample: with `top_k = 0` the loop still accepts the first
candidate before testing the break condition (retrieval.rs lines 96-99), so
the result has one element and `len(result) ≤ k` fails. -/
theorem select_diverse_k_zero :
    select_diverse [{ document_id := 0, chunk_id := 0 }] 0 =
      [{ document_id := 0, chunk_id := 0 }] ∧
    ¬ ((select_diverse [{ document_id := 0, chunk_id := 0 }] 0).length ≤ 0) := by
  constructor
  · decide
  · decide

/-- The forced-priority step never removes an already-present index. -/
theorem forcedStep_preserves (sections : List WSection) (sc : List (Nat × ℚ))
    (core : String) (i : Nat) (h : i ∈ sc.map Prod.fst) :
    i ∈ (forcedStep sections sc core).map Prod.fst := by
  unfold forcedStep
  cases hfi : List.findIdx? (fun s => strContainsSub s.id core) sections with
  | none => exact h
  | some idx =>
    dsimp only
    by_cases hany : (sc.any fun p => decide (p.1 = idx)) = true
    · rw [if_pos hany]
      exact h
    · rw [if_neg hany]
      simp only [List.map_cons, List.mem_cons]
      exact Or.inr h

/-- Folding forced-priority steps never removes an already-present index. -/
theorem forcedFold_preserves (sections : List WSection) (i : Nat) :
    ∀ (cores : List String) (sc : List (Nat × ℚ)), i ∈ sc.map Prod.fst →
      i ∈ (cores.foldl (forcedStep sections) sc).map Prod.fst := by
  intro cores
  induction cores with
  | nil => intro sc h; exact h
  | cons c rest ih =>
    intro sc h
    exact ih (forcedStep sections sc c) (forcedStep_preserves sections sc c i h)

/-- The forced-priority step puts the first matching section's index into the
result (inserting it if absent). -/
theorem forcedStep_inserts (sections : List WSection) (sc : List (Nat × ℚ))
    (core : String) (idx : Nat)
    (hfind : List.findIdx? (fun s => strContainsSub s.id core) sections = some idx) :
    idx ∈ (forcedStep sections sc core).map Prod.fst := by
  unfold forcedStep
  rw [hfind]
  dsimp only
  by_cases hany : (sc.any fun p => decide (p.1 = idx)) = true
  · rw [if_pos hany]
    rcases List.any_eq_true.mp hany with ⟨p, hp, hpi⟩
    simp only [decide_eq_true_eq] at hpi
    exact List.mem_map.mpr ⟨p, hp, hpi⟩
  · rw [if_neg hany]
    simp

/-- C6 (amended): for each entry of the forced-priority id list, the FIRST
section whose id contains that entry is guaranteed to be in the result set
after the forced-priority step (inserted at the front with fixed score 100.0
when absent).  Later sections whose ids also match are not inserted, and
100.0 need not exceed every computed score — see the counterexample. -/
theorem forced_priority_inclusion (sections : List WSection)
    (scores : List (Nat × ℚ)) (core : String) (idx : Nat)
    (hc : core ∈ coreSections)
    (hfind : List.findIdx? (fun s => strContainsSub s.id core) sections = some idx) :
    idx ∈ (forcedInsert sections scores).map Prod.fst := by
  have hcase : core = "personal_identity" ∨ core = "personal_background" := by
    simpa [coreSections] using hc
  unfold forcedInsert coreSections
  simp only [List.foldl_cons, List.foldl_nil]
  rcases hcase with hcase | hcase
  · subst hcase
    exact forcedStep_preserves sections _ "personal_background" idx
      (forcedStep_inserts sections scores "personal_identity" idx hfind)
  · subst hcase
    exact forcedStep_inserts sections
      (forcedStep sections scores "personal_identity") "personal_background" idx hfind

/-- Witness for `forced_priority_inclusion`: `exWid1` is the first section
whose id contains `personal_identity`, and it lands in the empty result. -/
theorem forced_priority_inclusion_witness :
    ("personal_identity" ∈ coreSections ∧
      List.findIdx? (fun s => strContainsSub s.id "personal_identity")
        [exWid1, exWid2] = some 0) ∧
    0 ∈ (forcedInsert [exWid1, exWid2] []).map Prod.fst :=
  ⟨⟨by decide, by decide⟩,
    forced_priority_inclusion [exWid1, exWid2] [] "personal_identity" 0 (by decide) (by decide)⟩

/-- C6 counterexample: `exWid2`'s id also contains the forced id
`personal_identity`, but only the FIRST matching section (index 0) is
inserted; index 1 is not in the result, so not every matching candidate is
inserted. -/
theorem forced_priority_not_all :
    strContainsSub exWid2.id "personal_identity" = true ∧
    "personal_identity" ∈ coreSections ∧
    ¬ (1 ∈ (forcedInsert [exWid1, exWid2] []).map Prod.fst) := by
  refine ⟨by decide, by decide, ?_⟩
  decide

/-- C8: the norm-zero guard returns 0 whenever either vector is the zero
vector (no division by a zero norm is ever performed), and a non-zero vector
has cosine similarity 1 with itself (arithmetic idealised over the reals). -/
theorem cosine_similarity_spec :
    (∀ a b : List ℝ, (∀ x ∈ a, x = 0) →
      cosine_similarity a b = 0 ∧ cosine_similarity b a = 0) ∧
    (∀ a : List ℝ, (∃ x ∈ a, x ≠ 0) → cosine_similarity a a = 1) := by
  constructor
  · intro a b ha
    have hsq : (a.map fun x => x * x).sum = 0 := by
      apply List.sum_eq_zero
      intro y hy
      rcases List.mem_map.mp hy with ⟨x, hx, rfl⟩
      rw [ha x hx, mul_zero]
    have hnorm : Real.sqrt (a.map fun x => x * x).sum = 0 := by
      rw [hsq, Real.sqrt_zero]
    constructor
    · unfold cosine_similarity
      rw [if_pos (Or.inl hnorm)]
    · unfold cosine_similarity
      rw [if_pos (Or.inr hnorm)]
  · intro a ⟨x, hx, hxne⟩
    have hnn : ∀ y ∈ a.map fun z => z * z, 0 ≤ y := by
      intro y hy
      rcases List.mem_map.mp hy with ⟨z, _, rfl⟩
      exact mul_self_nonneg z
    have hpos : 0 < (a.map fun z => z * z).sum := by
      have hle : x * x ≤ (a.map fun z => z * z).sum :=
        List.single_le_sum hnn (x * x) (List.mem_map.mpr ⟨x, hx, rfl⟩)
      have : 0 < x * x := mul_self_pos.mpr hxne
      linarith
    have hdot : (List.zipWith (fun x y => x * y) a a).sum = (a.map fun z => z * z).sum := by
      rw [List.zipWith_same]
    have hsqrt : Real.sqrt (a.map fun z => z * z).sum ≠ 0 := by
      have := Real.sqrt_pos.mpr hpos
      linarith
    unfold cosine_similarity
    rw [if_neg (by push_neg; exact ⟨hsqrt, hsqrt⟩)]
    rw [hdot, Real.mul_self_sqrt hpos.le]
    exact div_self hpos.ne'

/-- Witness for `cosine_similarity_spec` at the zero vector `[0, 0]` against
`[1, 2]` and at the non-zero vector `[1]`. -/
theorem cosine_similarity_spec_witness :
    ((∀ x ∈ ([0, 0] : List ℝ), x = 0) ∧
      cosine_similarity ([0, 0] : List ℝ) [1, 2] = 0 ∧
      cosine_similarity ([1, 2] : List ℝ) [0, 0] = 0) ∧
    ((∃ x ∈ ([1] : List ℝ), x ≠ 0) ∧ cosine_similarity ([1] : List ℝ) [1] = 1) := by
  have hz : ∀ x ∈ ([0, 0] : List ℝ), x = 0 := by
    intro x hx
    rcases List.mem_cons.mp hx with rfl | hx
    · rfl
    · rcases List.mem_cons.mp hx with rfl | hx
      · rfl
      · simp at hx
  have hnz : ∃ x ∈ ([1] : List ℝ), x ≠ 0 := ⟨1, by simp, one_ne_zero⟩
  exact ⟨⟨hz, cosine_similarity_spec.1 [0, 0] [1, 2] hz⟩,
    ⟨hnz, cosine_similarity_spec.2 [1] hnz⟩⟩

/-- The pop loop leaves at most `level` entries. -/
theorem popDropRev_length (level : Nat) :
    ∀ l : List String, (popDropRev level l).length ≤ level := by
  intro l
  induction l with
  | nil => simp [popDropRev]
  | cons x xs ih =>
    simp only [popDropRev]
    by_cases h : level ≤ (x :: xs).length
    · rw [if_pos h]
      exact ih
    · rw [if_neg h]
      omega

/-- The heading-path pop loop leaves at most `level` entries. -/
theorem popWhile_length (level : Nat) (p : List String) :
    (popWhile level p).length ≤ level := by
  unfold popWhile
  rw [List.length_reverse]
  exact popDropRev_length level p.reverse

/-- One parser step preserves `heading_path.len ≤ level`, both for the
in-progress state and for every closed section. -/
theorem mdStep_level (st : MdState) (e : MdEvent)
    (h1 : st.path.length ≤ st.level)
    (h2 : ∀ s ∈ st.sections, s.heading_path.length ≤ s.level) :
    (mdStep st e).path.length ≤ (mdStep st e).level ∧
    ∀ s ∈ (mdStep st e).sections, s.heading_path.length ≤ s.level := by
  cases e with
  | startHeading lv r =>
    refine ⟨popWhile_length lv st.path, ?_⟩
    dsimp only [mdStep]
    by_cases hc : (strTrim st.content).isEmpty
    · rw [if_pos hc]
      exact h2
    · rw [if_neg hc]
      intro s hs
      rcases List.mem_append.mp hs with hs | hs
      · exact h2 s hs
      · rcases List.mem_singleton.mp hs with rfl
        exact h1
  | endHeading => exact ⟨h1, h2⟩
  | text s =>
    refine ⟨?_, h2⟩
    dsimp only [mdStep]
    by_cases hc : 0 < st.level ∧ st.path.length < st.level
    · rw [if_pos hc]
      simp only [List.length_append, List.length_cons, List.length_nil]
      omega
    · rw [if_neg hc]
      exact h1
  | code s => exact ⟨h1, h2⟩
  | startCodeBlock => exact ⟨h1, h2⟩
  | endCodeBlock => exact ⟨h1, h2⟩
  | softBreak => exact ⟨h1, h2⟩
  | hardBreak => exact ⟨h1, h2⟩
  | other => exact ⟨h1, h2⟩

/-- The event fold preserves `heading_path.len ≤ level`. -/
theorem mdFold_level :
    ∀ (events : List MdEvent) (st : MdState),
      st.path.length ≤ st.level →
      (∀ s ∈ st.sections, s.heading_path.length ≤ s.level) →
      (events.foldl mdStep st).path.length ≤ (events.foldl mdStep st).level ∧
      ∀ s ∈ (events.foldl mdStep st).sections, s.heading_path.length ≤ s.level := by
  intro events
  induction events with
  | nil => intro st h1 h2; exact ⟨h1, h2⟩
  | cons e rest ih =>
    intro st h1 h2
    have := mdStep_level st e h1 h2
    exact ih (mdStep st e) this.1 this.2

/-- The event fold preserves the offset invariants: the pending start offset
stays below every remaining heading range start and the document length, every
closed section has `start_offset ≤ end_offset`, all closed ends are at most
the pending start offset, and consecutive sections have non-decreasing spans. -/
theorem mdFold_offsets (docLen : Nat) :
    ∀ (events : List MdEvent) (st : MdState),
      List.Chain' (· ≤ ·) (st.startOff :: (headingRangeStarts events ++ [docLen])) →
      (∀ s ∈ st.sections, s.start_offset ≤ s.end_offset) →
      (∀ s ∈ st.sections, s.end_offset ≤ st.startOff) →
      List.Chain' (fun a b => a.end_offset ≤ b.start_offset) st.sections →
      ((events.foldl mdStep st).startOff ≤ docLen ∧
       (∀ s ∈ (events.foldl mdStep st).sections, s.start_offset ≤ s.end_offset) ∧
       (∀ s ∈ (events.foldl mdStep st).sections,
          s.end_offset ≤ (events.foldl mdStep st).startOff) ∧
       List.Chain' (fun a b => a.end_offset ≤ b.start_offset)
         (events.foldl mdStep st).sections) := by
  intro events
  induction events with
  | nil =>
    intro st hch h1 h2 h3
    refine ⟨?_, h1, h2, h3⟩
    simp only [headingRangeStarts, List.filterMap_nil, List.nil_append] at hch
    exact (List.chain'_cons.mp hch).1
  | cons e rest ih =>
    intro st hch h1 h2 h3
    rw [List.foldl_cons]
    cases e with
    | startHeading lv r =>
      have hr : headingRangeStarts (MdEvent.startHeading lv r :: rest) =
          r :: headingRangeStarts rest := by
        simp [headingRangeStarts]
      rw [hr] at hch
      have hsr : st.startOff ≤ r := by
        rcases List.chain'_cons'.mp hch with ⟨hhd, _⟩
        exact hhd r rfl
      have hch' : List.Chain' (· ≤ ·) (r :: (headingRangeStarts rest ++ [docLen])) :=
        (List.chain'_cons'.mp hch).2
      apply ih
      · exact hch'
      · dsimp only [mdStep]
        by_cases hc : (strTrim st.content).isEmpty
        · rw [if_pos hc]
          exact h1
        · rw [if_neg hc]
          intro s hs
          rcases List.mem_append.mp hs with hs | hs
          · exact h1 s hs
          · rcases List.mem_singleton.mp hs with rfl
            exact hsr
      · dsimp only [mdStep]
        by_cases hc : (strTrim st.content).isEmpty
        · rw [if_pos hc]
          intro s hs
          exact le_trans (h2 s hs) hsr
        · rw [if_neg hc]
          intro s hs
          rcases List.mem_append.mp hs with hs | hs
          · exact le_trans (h2 s hs) hsr
          · rcases List.mem_singleton.mp hs with rfl
            exact le_refl r
      · dsimp only [mdStep]
        by_cases hc : (strTrim st.content).isEmpty
        · rw [if_pos hc]
          exact h3
        · rw [if_neg hc]
          rw [List.chain'_append]
          refine ⟨h3, List.chain'_singleton _, ?_⟩
          intro x hx y hy
          rcases List.mem_getLast?_eq_getLast hx with ⟨hne, rfl⟩
          simp only [List.head?_cons, Option.mem_def, Option.some.injEq] at hy
          subst hy
          exact h2 _ (List.getLast_mem hne)
    | endHeading => exact ih st hch h1 h2 h3
    | text s =>
      apply ih (mdStep st (MdEvent.text s))
      · exact hch
      · exact h1
      · exact h2
      · exact h3
    | code s => exact ih _ hch h1 h2 h3
    | startCodeBlock => exact ih _ hch h1 h2 h3
    | endCodeBlock => exact ih _ hch h1 h2 h3
    | softBreak => exact ih _ hch h1 h2 h3
    | hardBreak => exact ih _ hch h1 h2 h3
    | other => exact ih _ hch h1 h2 h3

/-- C7 (amended): every section emitted by the Segmenter satisfies
`len(heading_path) ≤ level` at the moment it closes (equality can fail, e.g.
when a heading skips levels right before the end of input — see the
counterexample), and, under the parser contract that heading event ranges are
non-decreasing and bounded by the document length, the emitted sections'
offsets are monotonic non-decreasing: each section has
`start_offset ≤ end_offset` and consecutive sections satisfy
`end_offset ≤ next.start_offset`. -/
theorem parse_markdown_invariants (events : List MdEvent) (docLen : Nat) :
    (∀ s ∈ parse_markdown events docLen, s.heading_path.length ≤ s.level) ∧
    (List.Chain' (· ≤ ·) (headingRangeStarts events ++ [docLen]) →
      (∀ s ∈ parse_markdown events docLen, s.start_offset ≤ s.end_offset) ∧
      List.Chain' (fun a b => a.end_offset ≤ b.start_offset)
        (parse_markdown events docLen)) := by
  obtain ⟨hpath, hsecs⟩ :=
    mdFold_level events mdInit (by simp [mdInit]) (by simp [mdInit])
  constructor
  · intro s hs
    unfold parse_markdown mdFinal at hs
    by_cases hc : (strTrim (events.foldl mdStep mdInit).content).isEmpty
    · rw [if_pos hc] at hs
      exact hsecs s hs
    · rw [if_neg hc] at hs
      rcases List.mem_append.mp hs with hs | hs
      · exact hsecs s hs
      · rcases List.mem_singleton.mp hs with rfl
        exact hpath
  · intro hchain
    obtain ⟨hdoc, hse, hend, hch⟩ :=
      mdFold_offsets docLen events mdInit
        (List.chain'_cons'.mpr ⟨fun y _ => Nat.zero_le y, hchain⟩)
        (by simp [mdInit]) (by simp [mdInit]) (by simp [mdInit])
    constructor
    · intro s hs
      unfold parse_markdown mdFinal at hs
      by_cases hc : (strTrim (events.foldl mdStep mdInit).content).isEmpty
      · rw [if_pos hc] at hs
        exact hse s hs
      · rw [if_neg hc] at hs
        rcases List.mem_append.mp hs with hs | hs
        · exact hse s hs
        · rcases List.mem_singleton.mp hs with rfl
          exact le_trans (le_refl _) hdoc
    · unfold parse_markdown mdFinal
      by_cases hc : (strTrim (events.foldl mdStep mdInit).content).isEmpty
      · rw [if_pos hc]
        exact hch
      · rw [if_neg hc]
        rw [List.chain'_append]
        refine ⟨hch, List.chain'_singleton _, ?_⟩
        intro x hx y hy
        rcases List.mem_getLast?_eq_getLast hx with ⟨hne, rfl⟩
        simp only [List.head?_cons, Option.mem_def, Option.some.injEq] at hy
        subst hy
        exact hend _ (List.getLast_mem hne)

/-- Witness for `parse_markdown_invariants` on the concrete stream
`exEvents` with document length 9 (ranges 0 and 4 are non-decreasing). -/
theorem parse_markdown_invariants_witness :
    List.Chain' (· ≤ ·) (headingRangeStarts exEvents ++ [9]) ∧
    ((∀ s ∈ parse_markdown exEvents 9, s.start_offset ≤ s.end_offset) ∧
      List.Chain' (fun a b => a.end_offset ≤ b.start_offset)
        (parse_markdown exEvents 9)) := by
  have hr : headingRangeStarts exEvents ++ [9] = [0, 4, 9] := rfl
  have hchain : List.Chain' (· ≤ ·) (headingRangeStarts exEvents ++ [9]) := by
    rw [hr]
    exact List.chain'_cons.mpr ⟨by omega,
      List.chain'_cons.mpr ⟨by omega, List.chain'_singleton 9⟩⟩
  exact ⟨hchain, (parse_markdown_invariants exEvents 9).2 hchain⟩

/-- C7 counterexample: in the document `"# A\n### B"` the level jumps from 1
to 3, the final section closes with `heading_path = ["A", "B"]` of length 2
but `level = 3`, so `len(heading_path) == level` fails. -/
theorem heading_path_level_mismatch :
    (parse_markdown exEvents 9).map (fun s => (s.heading_path.length, s.level)) =
      [(1, 1), (2, 3)] ∧
    ¬ (∀ s ∈ parse_markdown exEvents 9, s.heading_path.length = s.level) := by
  constructor
  · decide
  · decide

/-- Peeling one string off a join. -/
theorem string_join_cons (a : String) (l : List String) :
    String.join (a :: l) = a ++ String.join l := by
  simp [String.join_eq]
  constructor

/-- Join distributes over list append. -/
theorem string_join_append (l1 l2 : List String) :
    String.join (l1 ++ l2) = String.join l1 ++ String.join l2 := by
  induction l1 with
  | nil =>
    show String.join l2 = String.join [] ++ String.join l2
    rw [show String.join [] = "" from rfl, String.empty_append]
  | cons a l ih =>
    rw [List.cons_append, string_join_cons, ih, string_join_cons,
      String.append_assoc]

/-- The length of a join is the sum of the lengths. -/
theorem string_length_join (l : List String) :
    (String.join l).length = (l.map String.length).sum := by
  induction l with
  | nil => rfl
  | cons a l ih =>
    rw [string_join_cons, String.length_append, ih, List.map_cons, List.sum_cons]

/-- Block-appending loop of `search`: some prefix of whole blocks is
appended, its counted length stays within the budget, the marker appears
exactly when a block was left out, and only because that block would have
overflowed the budget. -/
theorem searchLoop_spec (maxLen : Nat) :
    ∀ (blocks : List String) (total : Nat), total ≤ maxLen →
    ∃ n, n ≤ blocks.length ∧
      searchLoop maxLen total blocks =
        String.join (blocks.take n) ++ (if n < blocks.length then truncMarker else "") ∧
      total + ((blocks.take n).map String.length).sum ≤ maxLen ∧
      (∀ hn : n < blocks.length,
        maxLen < total + ((blocks.take n).map String.length).sum +
          (blocks.get ⟨n, hn⟩).length) := by
  intro blocks
  induction blocks with
  | nil =>
    intro total htot
    refine ⟨0, by omega, ?_, by simpa using htot, ?_⟩
    · simp [searchLoop, String.join]
    · intro hn
      simp at hn
  | cons b rest ih =>
    intro total htot
    by_cases hov : maxLen < total + b.length
    · refine ⟨0, by omega, ?_, by simpa using htot, ?_⟩
      · simp only [searchLoop, if_pos hov, List.take_zero]
        rw [show String.join [] = "" from rfl, String.empty_append,
          if_pos (by simp)]
      · intro hn
        simpa using hov
    · push_neg at hov
      obtain ⟨n, hn, heq, hsum, hover⟩ := ih (total + b.length) hov
      refine ⟨n + 1, by simpa using hn, ?_, ?_, ?_⟩
      · simp only [searchLoop, if_neg (by omega : ¬ maxLen < total + b.length)]
        rw [heq, List.take_succ_cons, string_join_cons, String.append_assoc]
        simp only [List.length_cons, Nat.add_lt_add_iff_right]
      · simp only [List.take_succ_cons, List.map_cons, List.sum_cons]
        omega
      · intro hn1
        have hn' : n < rest.length := by simpa using hn1
        have := hover hn'
        simp only [List.take_succ_cons, List.map_cons, List.sum_cons,
          List.get_cons_succ]
        omega

/-- Inner section loop of `get_full_context`: some prefix of whole section
blocks is appended after `ctx`, the counted length stays within the budget,
and the stop flag is raised exactly when a block was left out, only because
it would have overflowed the budget. -/
theorem fullLoop_spec (maxLen : Nat) :
    ∀ (secs : List WSection) (total : Nat) (ctx : String), total ≤ maxLen →
    ∃ n stopped, n ≤ secs.length ∧
      fullLoop maxLen total ctx secs =
        (ctx ++ String.join ((secs.take n).map sectionText) ++
          (if stopped then truncMarker else ""),
         total + (((secs.take n).map sectionText).map String.length).sum,
         stopped) ∧
      total + (((secs.take n).map sectionText).map String.length).sum ≤ maxLen ∧
      (stopped = true ↔ n < secs.length) ∧
      (stopped = true → ∃ s ∈ secs,
        maxLen < total + (((secs.take n).map sectionText).map String.length).sum +
          (sectionText s).length) := by
  intro secs
  induction secs with
  | nil =>
    intro total ctx htot
    refine ⟨0, false, by omega, ?_, by simpa using htot, by simp, by simp⟩
    simp only [fullLoop, List.take_nil, List.map_nil, if_neg Bool.false_ne_true]
    rw [show String.join [] = "" from rfl, String.append_empty, String.append_empty]
    simp
  | cons s rest ih =>
    intro total ctx htot
    by_cases hov : maxLen < total + (sectionText s).length
    · refine ⟨0, true, by omega, ?_, by simpa using htot, by simp, ?_⟩
      · simp only [fullLoop, if_pos hov]
        simp [String.join]
      · intro _
        exact ⟨s, List.mem_cons_self s rest, by simpa using hov⟩
    · push_neg at hov
      obtain ⟨n, stopped, hn, heq, hsum, hiff, hover⟩ :=
        ih (total + (sectionText s).length) (ctx ++ sectionText s) hov
      refine ⟨n + 1, stopped, by simpa using hn, ?_, ?_, ?_, ?_⟩
      · simp only [fullLoop, if_neg (by omega : ¬ maxLen < total + (sectionText s).length)]
        rw [heq]
        simp only [List.take_succ_cons, List.map_cons, string_join_cons,
          List.sum_cons, Prod.mk.injEq]
        refine ⟨?_, ?_, trivial⟩
        · rw [String.append_assoc ctx (sectionText s)
            (String.join (List.map sectionText (List.take n rest)))]
        · omega
      · simp only [List.take_succ_cons, List.map_cons, List.sum_cons]
        omega
      · rw [List.length_cons]
        constructor
        · intro h
          have := hiff.mp h
          omega
        · intro h
          exact hiff.mpr (by omega)
      · intro hst
        obtain ⟨t, ht, hlt⟩ := hover hst
        refine ⟨t, List.mem_cons_of_mem s ht, ?_⟩
        simp only [List.take_succ_cons, List.map_cons, List.sum_cons]
        omega

/-- Category loop of `get_full_context`: the output extends `ctx` with whole
pieces only — category headers (uncounted) and whole section blocks (counted,
within budget) — followed by at most one truncation marker, emitted only
because some block would have overflowed the budget. -/
theorem fullCats_spec (maxLen : Nat) (sections : List WSection) :
    ∀ (cats : List String) (total : Nat) (ctx : String), total ≤ maxLen →
    ∃ (pieces : List String) (blockSum : Nat) (stopped : Bool),
      fullCats maxLen sections total ctx cats =
        ctx ++ String.join pieces ++ (if stopped then truncMarker else "") ∧
      (∀ p ∈ pieces, (∃ c ∈ cats, p = catHeader c) ∨ ∃ s ∈ sections, p = sectionText s) ∧
      (pieces.map String.length).sum ≤
        ((cats.map catHeader).map String.length).sum + blockSum ∧
      total + blockSum ≤ maxLen ∧
      (stopped = true → ∃ s ∈ sections, ∃ t, t ≤ maxLen ∧
        maxLen < t + (sectionText s).length) := by
  intro cats
  induction cats with
  | nil =>
    intro total ctx htot
    refine ⟨[], 0, false, ?_, by simp, by simp, by omega, by simp⟩
    simp [fullCats, String.join]
  | cons cat rest ih =>
    intro total ctx htot
    simp only [fullCats]
    by_cases hemp : (sections.filter fun s => s.category = cat).isEmpty
    · rw [if_pos hemp]
      obtain ⟨pieces, bs, stopped, heq, hshape, hsum, htot2, hover⟩ := ih total ctx htot
      refine ⟨pieces, bs, stopped, heq, ?_, ?_, htot2, hover⟩
      · intro p hp
        rcases hshape p hp with ⟨c, hc, rfl⟩ | h
        · exact Or.inl ⟨c, List.mem_cons_of_mem cat hc, rfl⟩
        · exact Or.inr h
      · simp only [List.map_cons, List.sum_cons]
        omega
    · rw [if_neg hemp]
      obtain ⟨n, stopped1, hn, heqL, hsumL, hiffL, hoverL⟩ :=
        fullLoop_spec maxLen (sections.filter fun s => s.category = cat)
          total (ctx ++ catHeader cat) htot
      rw [heqL]
      dsimp only
      have hmemsec : ∀ p ∈ (((sections.filter fun s => s.category = cat).take n).map
          sectionText), ∃ s ∈ sections, p = sectionText s := by
        intro p hp
        rcases List.mem_map.mp hp with ⟨s, hs, rfl⟩
        exact ⟨s, List.mem_of_mem_filter (List.mem_of_mem_take hs), rfl⟩
      cases stopped1 with
      | true =>
        rw [if_pos rfl]
        refine ⟨catHeader cat ::
          (((sections.filter fun s => s.category = cat).take n).map sectionText),
          (((((sections.filter fun s => s.category = cat).take n).map
            sectionText).map String.length).sum), true, ?_, ?_, ?_, ?_, ?_⟩
        · rw [string_join_cons, if_pos rfl, String.append_assoc ctx (catHeader cat)]
        · intro p hp
          rcases List.mem_cons.mp hp with rfl | hp
          · exact Or.inl ⟨cat, List.mem_cons_self cat rest, rfl⟩
          · exact Or.inr (hmemsec p hp)
        · simp only [List.map_cons, List.sum_cons]
          omega
        · omega
        · intro _
          obtain ⟨s, hs, hlt⟩ := hoverL rfl
          exact ⟨s, List.mem_of_mem_filter hs,
            total + (((((sections.filter fun s => s.category = cat).take n).map
              sectionText).map String.length).sum), hsumL, hlt⟩
      | false =>
        rw [if_neg Bool.false_ne_true]
        rw [show (if (false = true) then truncMarker else "") = "" from rfl]
        obtain ⟨pieces, bs, stopped, heq, hshape, hsum, htot2, hover⟩ :=
          ih (total + (((((sections.filter fun s => s.category = cat).take n).map
            sectionText).map String.length).sum))
            (ctx ++ catHeader cat ++
              String.join (((sections.filter fun s => s.category = cat).take n).map
                sectionText) ++ "") hsumL
        refine ⟨(catHeader cat ::
          (((sections.filter fun s => s.category = cat).take n).map sectionText)) ++
            pieces,
          (((((sections.filter fun s => s.category = cat).take n).map
            sectionText).map String.length).sum) + bs, stopped, ?_, ?_, ?_, ?_, hover⟩
        · rw [heq, string_join_append, string_join_cons]
          rw [String.append_empty]
          rw [String.append_assoc ctx (catHeader cat)]
          rw [String.append_assoc ctx
            (catHeader cat ++ String.join (((sections.filter fun s =>
              s.category = cat).take n).map sectionText))]
        · intro p hp
          rcases List.mem_append.mp hp with hp | hp
          · rcases List.mem_cons.mp hp with rfl | hp
            · exact Or.inl ⟨cat, List.mem_cons_self cat rest, rfl⟩
            · exact Or.inr (hmemsec p hp)
          · rcases hshape p hp with ⟨c, hc, rfl⟩ | h
            · exact Or.inl ⟨c, List.mem_cons_of_mem cat hc, rfl⟩
            · exact Or.inr h
        · simp only [List.map_append, List.map_cons, List.sum_append, List.sum_cons]
          omega
        · omega

/-- C4 (amended): in the ranked mode the assembled context is the fixed
preamble plus a prefix of whole blocks plus at most one truncation marker,
the counted block length stays within `max_context_length`, the marker
appears exactly when a block was left out and only because it would have
overflowed, and the total length is bounded by `max_context_length` plus the
marker length PLUS the uncounted preamble (20 characters, lib.rs line 220).
In the full-dump mode the output consists of whole pieces (category headers
and section blocks) plus at most one marker, emitted only on overflow, and
the length is bounded by `max_context_length` plus the marker length PLUS
the uncounted category headers (at most 75 characters, lib.rs line 263).
The original claim's bound without the uncounted header text fails — see the
counterexample. -/
theorem assemble_budget :
    (∀ (blocks : List String) (maxLen : Nat),
      (assembleContext blocks maxLen).length ≤
        searchPreamble.length + maxLen + truncMarker.length ∧
      ∃ n, n ≤ blocks.length ∧
        assembleContext blocks maxLen =
          searchPreamble ++ (String.join (blocks.take n) ++
            (if n < blocks.length then truncMarker else "")) ∧
        ((blocks.take n).map String.length).sum ≤ maxLen ∧
        (∀ hn : n < blocks.length,
          maxLen < ((blocks.take n).map String.length).sum +
            (blocks.get ⟨n, hn⟩).length)) ∧
    (∀ (sections : List WSection) (maxLen : Nat),
      (get_full_context sections maxLen).length ≤
        ((fullCategories.map catHeader).map String.length).sum + maxLen +
          truncMarker.length ∧
      ∃ (pieces : List String) (stopped : Bool),
        get_full_context sections maxLen =
          String.join pieces ++ (if stopped then truncMarker else "") ∧
        (∀ p ∈ pieces, (∃ c ∈ fullCategories, p = catHeader c) ∨
          ∃ s ∈ sections, p = sectionText s) ∧
        (stopped = true → ∃ s ∈ sections, ∃ t, t ≤ maxLen ∧
          maxLen < t + (sectionText s).length)) := by
  constructor
  · intro blocks maxLen
    obtain ⟨n, hn, heq, hsum, hover⟩ := searchLoop_spec maxLen blocks 0 (by omega)
    simp only [Nat.zero_add] at hsum hover
    have heqA : assembleContext blocks maxLen =
        searchPreamble ++ (String.join (blocks.take n) ++
          (if n < blocks.length then truncMarker else "")) := by
      unfold assembleContext
      rw [heq]
    refine ⟨?_, n, hn, heqA, hsum, hover⟩
    rw [heqA, String.length_append, String.length_append, string_length_join]
    by_cases hlt : n < blocks.length
    · rw [if_pos hlt]
      omega
    · rw [if_neg hlt]
      simp only [String.length, List.length_nil]
      omega
  · intro sections maxLen
    obtain ⟨pieces, blockSum, stopped, heq, hshape, hsum, htot, hover⟩ :=
      fullCats_spec maxLen sections fullCategories 0 "" (by omega)
    have heqA : get_full_context sections maxLen =
        String.join pieces ++ (if stopped then truncMarker else "") := by
      unfold get_full_context
      rw [heq, String.empty_append]
    refine ⟨?_, pieces, stopped, heqA, hshape, hover⟩
    rw [heqA, String.length_append, string_length_join]
    cases stopped with
    | true =>
      rw [if_pos rfl]
      omega
    | false =>
      rw [if_neg Bool.false_ne_true]
      simp only [String.length, List.length_nil]
      omega

/-- Witness for `assemble_budget` at a concrete block list and section list. -/
theorem assemble_budget_witness :
    ((assembleContext ["ab"] 5).length ≤
      searchPreamble.length + 5 + truncMarker.length) ∧
    ((get_full_context [exWps] 7).length ≤
      ((fullCategories.map catHeader).map String.length).sum + 7 +
        truncMarker.length) :=
  ⟨(assemble_budget.1 ["ab"] 5).1, (assemble_budget.2 [exWps] 7).1⟩

/-- C4 counterexample: with `max_context_length = 0` and one `personal`
section, `get_full_context` emits the uncounted category header
`"\n# PERSONAL INFORMATION\n\n"` (25 chars) plus the marker (41 chars), so
the output length 66 exceeds `max_context_length` plus the marker length. -/
theorem assemble_budget_headers_uncounted :
    (get_full_context [exWps] 0).length = 66 ∧
    ¬ ((get_full_context [exWps] 0).length ≤ 0 + truncMarker.length) := by
  constructor
  · decide
  · decide

/-- Folding `add_section` appends exactly the given sections, each with its
content whitespace-trimmed. -/
theorem foldl_add_section_sections :
    ∀ (secs : List WSection) (st : Processor),
      (secs.foldl add_section st).sections =
        st.sections ++ secs.map fun s => { s with content := strTrim s.content } := by
  intro secs
  induction secs with
  | nil => intro st; simp
  | cons s rest ih =>
    intro st
    rw [List.foldl_cons, ih]
    simp [add_section]

/-- C10 (amended): `import_sections` leaves the processor unchanged when the
input does not parse (the `Err` arm only logs); on a successful parse the
previous state is irrelevant (it is fully cleared) and the stored sections
are exactly the imported ones in order — but with their content
whitespace-trimmed by `add_section`, not byte-identical to the input (see the
counterexample). -/
theorem import_sections_spec (st st' : Processor) (secs : List WSection) :
    import_sections st none = st ∧
    import_sections st (some secs) = import_sections st' (some secs) ∧
    (import_sections st (some secs)).sections =
      secs.map fun s => { s with content := strTrim s.content } := by
  refine ⟨rfl, rfl, ?_⟩
  show (secs.foldl add_section (clearProcessor st)).sections = _
  rw [foldl_add_section_sections]
  simp [clearProcessor]

/-- C10 counterexample: importing a section whose content is `" a "` stores
content `"a"`, so the stored sections are not exactly the imported ones. -/
theorem import_sections_trims :
    (import_sections emptyProcessor (some [exWimp])).sections ≠ [exWimp] ∧
    (import_sections emptyProcessor (some [exWimp])).sections =
      [{ exWimp with content := "a" }] := by
  constructor
  · decide
  · decide
